import Mathlib

/-!
Verification of the model-name correction tool in
`src/aider_mcp_server/atoms/tools/aider_magic_model_correction.py`.

The Python module exposes a static provider catalog `KNOWN_MODELS`, a lookup
helper `get_available_models`, an internal scorer `_call_ai_for_correction`
(common-prefix length with case-insensitive character comparison, best match
accepted only when the score reaches 3), and the public entry point
`magic_model_correction`.

Strings are modelled by Lean `String`, Python `str.lower()` on the ASCII
catalog data by `Char.toLower`/`String.toLower`, the insertion-ordered dict by
an association list, and the scanning loop with `break` by structural
recursion on the character lists.
-/

/-- The static provider catalog, transcribed from `KNOWN_MODELS` in the source
(lines 20-40), in the same insertion order. -/
def KNOWN_MODELS : List (String × List String) := [
  ("openai", [
    "gpt-4o", "gpt-4o-mini", "gpt-4-turbo", "gpt-4", "gpt-3.5-turbo",
    "gpt-4-vision-preview", "gpt-4-32k", "gpt-3.5-turbo-16k"]),
  ("anthropic", [
    "claude-3-opus-20240229", "claude-3-sonnet-20240229", "claude-3-haiku-20240307",
    "claude-3-5-sonnet-20240620", "claude-3-5-haiku-20241022", "claude-2.1", "claude-2.0",
    "claude-instant-1.2"]),
  ("gemini", [
    "gemini-1.5-pro", "gemini-1.5-flash", "gemini-1.0-pro", "gemini-1.0-pro-vision",
    "gemini-2.5-pro-exp-03-25", "gemini-2.0-flash", "gemini-2.0-pro"]),
  ("cohere", [
    "command", "command-r", "command-r-plus", "command-light", "command-nightly"]),
  ("mistral", [
    "mistral-small", "mistral-medium", "mistral-large", "mistral-embed"])]

/-- Python `str.lower()`: lowercase a string character by character (the
catalog keys and model names are ASCII, where `Char.toLower` agrees with
Python's lowering). -/
def lowerStr (s : String) : String :=
  ⟨s.data.map Char.toLower⟩

/-- `get_available_models` (source lines 42-59): look the lowercased provider
name up in the catalog; unknown providers fall through to the stubbed provider
API, which returns the empty list. -/
def get_available_models (provider : String) : List String :=
  match KNOWN_MODELS.lookup (lowerStr provider) with
  | some models => models
  | none => []

/-- The scoring loop of `_call_ai_for_correction` (source lines 89-94): walk
both strings from index 0, counting consecutive case-insensitive character
matches, stopping at the first mismatch (`break`) or at the end of the shorter
string (`range(min(len(model), len(available_model)))`). -/
def prefixScore : List Char → List Char → Nat
  | c :: cs, d :: ds => if c.toLower == d.toLower then prefixScore cs ds + 1 else 0
  | _, _ => 0

/-- One iteration of the candidate loop of `_call_ai_for_correction` (source
lines 86-99): the accumulator holds `(best_match, best_score)`, updated only when
the candidate scores strictly higher. -/
def bestStep (model : String) (acc : Option String × Nat) (available_model : String) :
    Option String × Nat :=
  let score := prefixScore model.data available_model.data
  if score > acc.2 then (some available_model, score) else acc

/-- The whole candidate loop of `_call_ai_for_correction`, starting from
`best_match = None`, `best_score = 0` (source lines 83-99). -/
def bestCandidate (model : String) (available_models : List String) : Option String × Nat :=
  available_models.foldl (bestStep model) (none, 0)

/-- `_call_ai_for_correction` (source lines 61-112): run the candidate loop,
then return the best match when it is truthy (a non-`None`, non-empty string)
and its score is at least 3, and the original model otherwise.  The
`correction_model` parameter is accepted but never consulted.  The body is
total, so the `except` handler (lines 110-112) has nothing to catch. -/
def call_ai_for_correction (provider model : String) (available_models : List String)
    (correction_model : String) : String :=
  let best := bestCandidate model available_models
  match best.1 with
  | some best_match => if best_match ≠ "" ∧ 3 ≤ best.2 then best_match else model
  | none => model

/-- `magic_model_correction` (source lines 114-159): fetch the provider's
candidate list; return `model` unchanged when it is already a member
(exact, case-sensitive); otherwise when the list is non-empty delegate to
`call_ai_for_correction`; an empty list returns `model` unchanged.  Every
operation of the body is total, so the top-level `except` handler
(lines 157-159) has nothing to catch. -/
def magic_model_correction (provider model correction_model : String) : String :=
  let available_models := get_available_models provider
  if available_models.contains model then model
  else if !available_models.isEmpty then
    call_ai_for_correction provider model available_models correction_model
  else model

/-- The spec's description of the score (spec §4.1 step 3): the length of the
longest common prefix of the two strings under case-insensitive character
comparison, i.e. the number of leading positions of the zipped strings on
which the characters agree after lowering. -/
def commonPrefixLenCI (m a : List Char) : Nat :=
  ((m.zip a).takeWhile (fun p => p.1.toLower == p.2.toLower)).length

/-! ### Helper lemmas about the scorer -/

/-- The loop score is the spec's case-insensitive common-prefix length. -/
lemma prefixScore_eq_commonPrefixLenCI (m a : List Char) :
    prefixScore m a = commonPrefixLenCI m a := by
  induction m generalizing a with
  | nil => cases a <;> simp [prefixScore, commonPrefixLenCI]
  | cons c cs ih =>
    cases a with
    | nil => simp [prefixScore, commonPrefixLenCI]
    | cons d ds =>
      by_cases h : c.toLower == d.toLower
      · simp [prefixScore, commonPrefixLenCI, h, List.takeWhile_cons] at ih ⊢
        exact ih ds
      · simp [prefixScore, commonPrefixLenCI, h, List.takeWhile_cons]

/-- The score never exceeds the candidate's length. -/
lemma prefixScore_le_right (m a : List Char) : prefixScore m a ≤ a.length := by
  induction m generalizing a with
  | nil => cases a <;> simp [prefixScore]
  | cons c cs ih =>
    cases a with
    | nil => simp [prefixScore]
    | cons d ds =>
      by_cases h : c.toLower == d.toLower
      · simpa [prefixScore, h, Nat.succ_le_succ_iff] using ih ds
      · simp [prefixScore, h]

/-- The score never exceeds the model's length. -/
lemma prefixScore_le_left (m a : List Char) : prefixScore m a ≤ m.length := by
  induction m generalizing a with
  | nil => cases a <;> simp [prefixScore]
  | cons c cs ih =>
    cases a with
    | nil => simp [prefixScore]
    | cons d ds =>
      by_cases h : c.toLower == d.toLower
      · simpa [prefixScore, h, Nat.succ_le_succ_iff] using ih ds
      · simp [prefixScore, h]

/-! ### Helper lemmas about the candidate loop -/

/-- If the candidate loop ends with `best_match = None`, it never updated the
accumulator at all. -/
lemma foldl_bestStep_none (m : String) :
    ∀ (l : List String) (acc : Option String × Nat),
      (l.foldl (bestStep m) acc).1 = none → l.foldl (bestStep m) acc = acc := by
  intro l
  induction l with
  | nil => intro acc _; rfl
  | cons a t ih =>
    intro acc h
    simp only [List.foldl_cons] at h ⊢
    have h2 := ih (bestStep m acc a) h
    rw [h2] at h ⊢
    by_cases hc : prefixScore m.data a.data > acc.2
    · simp [bestStep, hc] at h
    · simp [bestStep, hc]

/-- Full characterisation of a successful candidate loop: the winner is a list
element, its score is the final score, that score strictly exceeds the initial
one, every candidate strictly before the winner scores strictly below it, and
every candidate after it scores no higher (first-seen wins under strict
comparison). -/
lemma foldl_bestStep_split (m : String) :
    ∀ (l : List String) (acc : Option String × Nat) (bm : String) (s : Nat),
      l.foldl (bestStep m) acc = (some bm, s) →
      (acc = (some bm, s) ∧ ∀ x ∈ l, prefixScore m.data x.data ≤ s) ∨
      (∃ pre post, l = pre ++ bm :: post ∧ s = prefixScore m.data bm.data ∧ acc.2 < s ∧
        (∀ x ∈ pre, prefixScore m.data x.data < s) ∧
        (∀ x ∈ post, prefixScore m.data x.data ≤ s)) := by
  intro l
  induction l with
  | nil =>
    intro acc bm s h
    exact Or.inl ⟨h, by simp⟩
  | cons a t ih =>
    intro acc bm s h
    simp only [List.foldl_cons] at h
    by_cases hc : prefixScore m.data a.data > acc.2
    · have hstep : bestStep m acc a = (some a, prefixScore m.data a.data) := by
        simp [bestStep, hc]
      rw [hstep] at h
      rcases ih _ bm s h with ⟨heq, hub⟩ | ⟨pre, post, hl, hs, hlt, hpre, hpost⟩
      · obtain ⟨hbm, hsc⟩ := Prod.mk.injEq .. ▸ heq
        obtain rfl : a = bm := by injection hbm
        refine Or.inr ⟨[], t, by simp, hsc.symm, ?_, by simp, ?_⟩
        · omega
        · intro x hx; exact hsc ▸ hub x hx
      · refine Or.inr ⟨a :: pre, post, by simp [hl], hs, ?_, ?_, hpost⟩
        · omega
        · intro x hx
          rcases List.mem_cons.mp hx with rfl | hx
          · simp only at hlt; omega
          · exact hpre x hx
    · have hstep : bestStep m acc a = acc := by simp [bestStep, hc]
      rw [hstep] at h
      rcases ih acc bm s h with ⟨heq, hub⟩ | ⟨pre, post, hl, hs, hlt, hpre, hpost⟩
      · refine Or.inl ⟨heq, ?_⟩
        intro x hx
        rcases List.mem_cons.mp hx with rfl | hx
        · have : acc.2 = s := by rw [heq]
          omega
        · exact hub x hx
      · refine Or.inr ⟨a :: pre, post, by simp [hl], hs, hlt, ?_, hpost⟩
        intro x hx
        rcases List.mem_cons.mp hx with rfl | hx
        · omega
        · exact hpre x hx

/-- A loop ending with `best_match = None` has final score `0`. -/
lemma bestCandidate_none (m : String) (l : List String)
    (h : (bestCandidate m l).1 = none) : bestCandidate m l = (none, 0) :=
  foldl_bestStep_none m l (none, 0) h

/-- Characterisation of a successful candidate loop started from
`(None, 0)`. -/
lemma bestCandidate_some (m : String) (l : List String) (bm : String) (s : Nat)
    (h : bestCandidate m l = (some bm, s)) :
    ∃ pre post, l = pre ++ bm :: post ∧ s = prefixScore m.data bm.data ∧ 0 < s ∧
      (∀ x ∈ pre, prefixScore m.data x.data < s) ∧
      (∀ x ∈ post, prefixScore m.data x.data ≤ s) := by
  rcases foldl_bestStep_split m l (none, 0) bm s h with ⟨heq, _⟩ | hr
  · exact absurd heq (by simp)
  · exact hr

/-- The winner of a successful candidate loop is a member of the list. -/
lemma bestCandidate_mem (m : String) (l : List String) (bm : String) (s : Nat)
    (h : bestCandidate m l = (some bm, s)) : bm ∈ l := by
  obtain ⟨pre, post, hl, -⟩ := bestCandidate_some m l bm s h
  subst hl
  exact List.mem_append.mpr (Or.inr (List.mem_cons_self bm post))

/-- The winner of a successful candidate loop is a non-empty string. -/
lemma bestCandidate_ne_empty (m : String) (l : List String) (bm : String) (s : Nat)
    (h : bestCandidate m l = (some bm, s)) : bm ≠ "" := by
  obtain ⟨pre, post, hl, hs, hpos, -⟩ := bestCandidate_some m l bm s h
  intro hbm
  subst hbm
  have hdata : ("" : String).data = [] := rfl
  rw [hdata] at hs
  have h0 : prefixScore m.data [] = 0 := by cases m.data <;> rfl
  omega

/-! ### Helper lemmas about the public entry point -/

/-- The exact-match short circuit (source lines 136-139): a model already in
the candidate list is returned unchanged. -/
lemma magic_of_mem (provider model correction_model : String)
    (h : model ∈ get_available_models provider) :
    magic_model_correction provider model correction_model = model := by
  simp [magic_model_correction, h]

/-- Every result of `magic_model_correction` is either the input model or a
candidate of the looked-up provider whose score against the input is at
least 3. -/
lemma magic_cases (p m c : String) :
    magic_model_correction p m c = m ∨
      (magic_model_correction p m c ∈ get_available_models p ∧
        3 ≤ prefixScore m.data (magic_model_correction p m c).data) := by
  by_cases h1 : m ∈ get_available_models p
  · left; simp [magic_model_correction, h1]
  · by_cases h2 : get_available_models p = []
    · left; simp [magic_model_correction, h1, h2]
    · have hmagic : magic_model_correction p m c =
          call_ai_for_correction p m (get_available_models p) c := by
        simp [magic_model_correction, h1, h2]
      rw [hmagic]
      rcases hbc : bestCandidate m (get_available_models p) with ⟨o, s⟩
      cases o with
      | none =>
        left
        simp [call_ai_for_correction, hbc]
      | some bm =>
        by_cases h3 : bm ≠ "" ∧ 3 ≤ s
        · right
          have hr : call_ai_for_correction p m (get_available_models p) c = bm := by
            simp only [call_ai_for_correction, hbc]
            rw [if_pos h3]
          rw [hr]
          have hmem := bestCandidate_mem m _ bm s hbc
          obtain ⟨pre, post, hl, hs, -⟩ := bestCandidate_some m _ bm s hbc
          exact ⟨hmem, by rw [← hs]; exact h3.2⟩
        · left
          simp only [call_ai_for_correction, hbc]
          rw [if_neg h3]

/-! ### The claims -/

/-- Claim C1: for every provider and every model string present verbatim
(exact, case-sensitive) in that provider's candidate list,
`magic_model_correction` returns that model string unchanged (the exact-match
short circuit of source lines 136-139 fires before any scoring). -/
theorem claim_C1_exact_match_short_circuit (provider model correction_model : String)
    (h : model ∈ get_available_models provider) :
    magic_model_correction provider model correction_model = model :=
  magic_of_mem provider model correction_model h

/-- Witness for C1 at the spec's own example. -/
theorem claim_C1_witness :
    "gpt-4o" ∈ get_available_models "openai" ∧
      magic_model_correction "openai" "gpt-4o" "any" = "gpt-4o" :=
  ⟨by decide, claim_C1_exact_match_short_circuit "openai" "gpt-4o" "any" (by decide)⟩

/-- Claim C2: for every model string and candidate string, the score computed
by the matcher loop equals the length of their longest common prefix under
case-insensitive character comparison. -/
theorem claim_C2_score_is_ci_common_prefix_length (model available_model : String) :
    prefixScore model.data available_model.data =
      commonPrefixLenCI model.data available_model.data :=
  prefixScore_eq_commonPrefixLenCI model.data available_model.data

/-- Claim C3: with a non-empty candidate list and no exact match, the best
candidate is returned exactly when its score reaches 3; when every candidate
scores below 3 the original model is returned; and concretely
`magic_model_correction "anthropic" "xyz" c = "xyz"` for every `c`. -/
theorem claim_C3_threshold (p m c : String)
    (h1 : get_available_models p ≠ [])
    (h2 : m ∉ get_available_models p) :
    ((∀ x ∈ get_available_models p, prefixScore m.data x.data < 3) →
        magic_model_correction p m c = m) ∧
    (∀ bm s, bestCandidate m (get_available_models p) = (some bm, s) →
        (magic_model_correction p m c = bm ↔ 3 ≤ s)) ∧
    (∀ d, magic_model_correction "anthropic" "xyz" d = "xyz") := by
  have hmagic : magic_model_correction p m c =
      call_ai_for_correction p m (get_available_models p) c := by
    simp [magic_model_correction, h1, h2]
  refine ⟨?_, ?_, fun d => rfl⟩
  · intro hall
    rcases hbc : bestCandidate m (get_available_models p) with ⟨o, s⟩
    cases o with
    | none => simp [hmagic, call_ai_for_correction, hbc]
    | some bm =>
      have hs3 : ¬(bm ≠ "" ∧ 3 ≤ s) := by
        obtain ⟨pre, post, hl, hs, -⟩ := bestCandidate_some m _ bm s hbc
        have hlt := hall bm (bestCandidate_mem m _ bm s hbc)
        rintro ⟨-, h3⟩
        omega
      rw [hmagic]
      simp only [call_ai_for_correction, hbc]
      rw [if_neg hs3]
  · intro bm s hbc
    constructor
    · intro heq
      by_contra h3
      have hm : magic_model_correction p m c = m := by
        rw [hmagic]
        simp only [call_ai_for_correction, hbc]
        rw [if_neg (fun hh => h3 hh.2)]
      rw [hm] at heq
      exact h2 (heq ▸ bestCandidate_mem m _ bm s hbc)
    · intro h3
      have hne := bestCandidate_ne_empty m _ bm s hbc
      rw [hmagic]
      simp only [call_ai_for_correction, hbc]
      rw [if_pos ⟨hne, h3⟩]

/-- Witness for C3 at the spec's `anthropic`/`xyz` example. -/
theorem claim_C3_witness :
    (get_available_models "anthropic" ≠ [] ∧ "xyz" ∉ get_available_models "anthropic") ∧
      magic_model_correction "anthropic" "xyz" "any" = "xyz" :=
  ⟨⟨by decide, by decide⟩,
    (claim_C3_threshold "anthropic" "xyz" "any" (by decide) (by decide)).1 (by decide)⟩

/-- Claim C4: among equally scored candidates the first in catalog iteration
order wins (every candidate before the winner scores strictly lower, every one
after scores no higher, because the loop uses strict comparison); concretely,
with `"gpt-4o"` first in the `openai` catalog entry,
`magic_model_correction "openai" "gpt4o" c = "gpt-4o"` for every `c`. -/
theorem claim_C4_first_seen_wins :
    (∀ (m : String) (l : List String) (bm : String) (s : Nat),
        bestCandidate m l = (some bm, s) →
        ∃ pre post, l = pre ++ bm :: post ∧ s = prefixScore m.data bm.data ∧
          (∀ x ∈ pre, prefixScore m.data x.data < s) ∧
          (∀ x ∈ post, prefixScore m.data x.data ≤ s)) ∧
    (∀ c, magic_model_correction "openai" "gpt4o" c = "gpt-4o") := by
  constructor
  · intro m l bm s h
    obtain ⟨pre, post, hl, hs, -, hpre, hpost⟩ := bestCandidate_some m l bm s h
    exact ⟨pre, post, hl, hs, hpre, hpost⟩
  · intro c; rfl

/-- Witness for C4 on the `openai` catalog entry. -/
theorem claim_C4_witness :
    bestCandidate "gpt4o" (get_available_models "openai") = (some "gpt-4o", 3) ∧
      (∃ pre post, get_available_models "openai" = pre ++ "gpt-4o" :: post ∧
        3 = prefixScore "gpt4o".data "gpt-4o".data ∧
        (∀ x ∈ pre, prefixScore "gpt4o".data x.data < 3) ∧
        (∀ x ∈ post, prefixScore "gpt4o".data x.data ≤ 3)) ∧
      magic_model_correction "openai" "gpt4o" "any" = "gpt-4o" :=
  ⟨by decide,
    claim_C4_first_seen_wins.1 "gpt4o" (get_available_models "openai") "gpt-4o" 3 (by decide),
    claim_C4_first_seen_wins.2 "any"⟩

/-- Claim C5: provider lookup is case-insensitive (it depends only on the
lowercased provider name), and for every provider whose lowercase form is not
a catalog key the candidate list is empty and `magic_model_correction` returns
the model unchanged; concretely for `"unknownprovider"`. -/
theorem claim_C5_unknown_provider :
    (∀ p q : String, lowerStr p = lowerStr q →
        get_available_models p = get_available_models q) ∧
    (∀ p m c : String, KNOWN_MODELS.lookup (lowerStr p) = none →
        get_available_models p = [] ∧ magic_model_correction p m c = m) ∧
    magic_model_correction "unknownprovider" "foo-model" "any" = "foo-model" := by
  refine ⟨?_, ?_, by rfl⟩
  · intro p q h
    unfold get_available_models
    rw [h]
  · intro p m c h
    have hav : get_available_models p = [] := by
      unfold get_available_models
      rw [h]
    refine ⟨hav, ?_⟩
    simp [magic_model_correction, hav]

/-- Witness for C5: a cased provider alias and an unknown provider. -/
theorem claim_C5_witness :
    (lowerStr "OpenAI" = lowerStr "openai" ∧
      get_available_models "OpenAI" = get_available_models "openai") ∧
      (KNOWN_MODELS.lookup (lowerStr "unknownprovider") = none ∧
        get_available_models "unknownprovider" = [] ∧
        magic_model_correction "unknownprovider" "foo-model" "any" = "foo-model") :=
  ⟨⟨by decide, claim_C5_unknown_provider.1 "OpenAI" "openai" (by decide)⟩,
    by decide,
    (claim_C5_unknown_provider.2.1 "unknownprovider" "foo-model" "any" (by decide)).1,
    (claim_C5_unknown_provider.2.1 "unknownprovider" "foo-model" "any" (by decide)).2⟩

/-- Claim C6: the corrector is a total function that never propagates a
failure: every input yields a result string, and that string is always usable
(either the original model or a catalog candidate).  In the embedding every
operation of the body is total, so the catch-all handlers of source lines
110-112 and 157-159 have nothing to intercept. -/
theorem claim_C6_total_no_throw (provider model correction_model : String) :
    ∃ s : String, magic_model_correction provider model correction_model = s ∧
      (s = model ∨ s ∈ get_available_models provider) := by
  refine ⟨magic_model_correction provider model correction_model, rfl, ?_⟩
  rcases magic_cases provider model correction_model with h | ⟨hmem, -⟩
  · exact Or.inl h
  · exact Or.inr hmem

/-- Claim C7: correction is idempotent — correcting an already corrected model
is a no-op, because a changed result is an exact catalog entry and hits the
short circuit, and an unchanged result reproduces the first run. -/
theorem claim_C7_idempotent (p m c : String) :
    magic_model_correction p (magic_model_correction p m c) c =
      magic_model_correction p m c := by
  rcases magic_cases p m c with h | ⟨hmem, -⟩
  · rw [h]
    exact h
  · exact magic_of_mem p _ c hmem

/-- Claim C8: prefix matching is case-insensitive on the model argument —
`"GPT-4O"` and `"gpt-4o"` select the same `openai` catalog candidate. -/
theorem claim_C8_case_insensitive_model :
    magic_model_correction "openai" "GPT-4O" "any" = "gpt-4o" ∧
      magic_model_correction "openai" "gpt-4o" "any" = "gpt-4o" :=
  ⟨by decide, by decide⟩

/-- Claim C9: the `correction_model` argument never influences the result. -/
theorem claim_C9_correction_model_unused (provider model c1 c2 : String) :
    magic_model_correction provider model c1 = magic_model_correction provider model c2 :=
  rfl

/-- Claim C10: every result is either the original model or a member of the
looked-up provider's candidate list whose case-insensitive common prefix with
the input has length at least 3; in particular the empty model string is always
returned unchanged. -/
theorem claim_C10_result_invariant :
    (∀ p m c : String,
        magic_model_correction p m c = m ∨
          (magic_model_correction p m c ∈ get_available_models p ∧
            3 ≤ commonPrefixLenCI m.data (magic_model_correction p m c).data)) ∧
    (∀ p c : String, magic_model_correction p "" c = "") := by
  have main : ∀ p m c : String,
      magic_model_correction p m c = m ∨
        (magic_model_correction p m c ∈ get_available_models p ∧
          3 ≤ commonPrefixLenCI m.data (magic_model_correction p m c).data) := by
    intro p m c
    rcases magic_cases p m c with h | ⟨hmem, hsc⟩
    · exact Or.inl h
    · exact Or.inr ⟨hmem, by rw [← prefixScore_eq_commonPrefixLenCI]; exact hsc⟩
  refine ⟨main, ?_⟩
  intro p c
  rcases main p "" c with h | ⟨-, hsc⟩
  · exact h
  · exfalso
    have hdata : ("" : String).data = [] := rfl
    rw [hdata] at hsc
    have h0 : commonPrefixLenCI [] (magic_model_correction p "" c).data = 0 := rfl
    omega
